import Mathlib

/-!
Verification development for a small RAG (retrieval-augmented generation)
question-answering system.  The source consists of:

* `utils/chunker.py` — `chunk_text`, a sliding-window text chunker;
* `vector_store/faiss_db.py` — `FAISSVectorStore` wrapping a flat FAISS
  L2 index together with parallel `chunks` and `metadata` lists;
* `vector_store/__init__.py` — `VectorStore`, a second flat-index store
  with persistence (`load_or_create_index`, `add_vectors`, `search`);
* `models/llm.py` — `SimpleLLM.generate_answer`;
* `main.py` — the FastAPI orchestration (`query_documents`, background
  ingestion).

Text is modelled as `List Char` (Python strings are character sequences),
vectors as `List ℚ` (exact rationals standing for the float values), and
Python list indexing/slicing with its actual semantics: negative indices
wrap from the end, slices clamp.
-/

/-- Python strings as character lists. -/
abbrev Str := List Char

/-- ASCII whitespace recognised by Python `str.strip()` / `str.isspace()`. -/
def pyIsSpace (c : Char) : Bool :=
  c = ' ' || c = '\t' || c = '\n' || c = '\x0d' || c = '\x0b' || c = '\x0c'

/-- `s.strip()`: remove leading and trailing whitespace. -/
def pyStrip (s : Str) : Str :=
  ((s.dropWhile pyIsSpace).reverse.dropWhile pyIsSpace).reverse

/-- Truthiness of `s.strip()` in `if chunk.strip():` — nonempty after
stripping, i.e. some non-whitespace character occurs. -/
def hasNonWS (s : Str) : Bool :=
  s.any (fun c => !(pyIsSpace c))

/-- Normalise one slice bound the way Python does for `s[a:b]`:
negative indices count from the end, then the bound is clamped to
`[0, n]`. -/
def pyBound (n : Nat) (i : ℤ) : Nat :=
  if i < 0 then ((n : ℤ) + i).toNat else min i.toNat n

/-- Python slice `s[a:b]` (step 1). -/
def pySlice (s : Str) (a b : ℤ) : Str :=
  let lo := pyBound s.length a
  let hi := pyBound s.length b
  (s.drop lo).take (hi - lo)

/-- Python list indexing `l[i]`: negative indices wrap from the end;
out-of-range access raises `IndexError`, modelled as `none`. -/
def pyListGet (l : List α) (i : ℤ) : Option α :=
  if h : 0 ≤ i ∧ i < (l.length : ℤ) then
    some (l.get ⟨i.toNat, by omega⟩)
  else if h' : i < 0 ∧ 0 ≤ (l.length : ℤ) + i then
    some (l.get ⟨((l.length : ℤ) + i).toNat, by omega⟩)
  else
    none

/-- The in-range position a (possibly negative) Python index denotes in a
list of length `n`. -/
def normIdx (n : Nat) (i : ℤ) : Nat :=
  if i < 0 then ((n : ℤ) + i).toNat else i.toNat

/-- `d.get(key, default)` on an insertion-ordered association list. -/
def pyDictGetD (d : List (Str × α)) (key : Str) (dflt : α) : α :=
  match d.find? (fun p => p.1 = key) with
  | some p => p.2
  | none => dflt

/-- `d[key] = v` on a fresh copy: replace in place if the key exists,
append otherwise (Python dicts preserve insertion order). -/
def pyDictSet (d : List (Str × α)) (key : Str) (v : α) : List (Str × α) :=
  if d.any (fun p => p.1 = key) then
    d.map (fun p => if p.1 = key then (key, v) else p)
  else
    d ++ [(key, v)]

/-- Round half to even (Python `round`) of a rational, to an integer. -/
def roundHalfEven (q : ℚ) : ℤ :=
  let f := q.floor
  let frac := q - (f : ℚ)
  if frac < 1/2 then f
  else if frac > 1/2 then f + 1
  else if f % 2 = 0 then f else f + 1

/-- Python `round(x, 3)` idealised over the exact rationals. -/
def round3 (q : ℚ) : ℚ :=
  (roundHalfEven (q * 1000) : ℚ) / 1000

/-- Largest finite IEEE-754 single: FAISS initialises its result heaps
with this distance, so search results of an index holding fewer than `k`
vectors are padded with `(FLT_MAX, -1)` pairs. -/
def FLT_MAX : ℚ := (2 ^ 24 - 1) * 2 ^ 104

/-- Squared Euclidean (L2) distance, the metric of `faiss.IndexFlatL2`. -/
def sqDist (u v : List ℚ) : ℚ :=
  ((List.zipWith (fun a b => a - b) u v).map (fun x => x * x)).sum

/-- Comparison used to order FAISS flat-search results: ascending
distance, ties by lower stored position. -/
def distRel (a b : ℚ × ℤ) : Prop :=
  a.1 < b.1 ∨ (a.1 = b.1 ∧ a.2 ≤ b.2)

instance : DecidableRel distRel := fun a b => by
  unfold distRel; infer_instance

instance : IsTotal (ℚ × ℤ) distRel where
  total a b := by
    unfold distRel
    rcases lt_trichotomy a.1 b.1 with h | h | h
    · exact Or.inl (Or.inl h)
    · rcases le_total a.2 b.2 with h2 | h2
      · exact Or.inl (Or.inr ⟨h, h2⟩)
      · exact Or.inr (Or.inr ⟨h.symm, h2⟩)
    · exact Or.inr (Or.inl h)

instance : IsTrans (ℚ × ℤ) distRel where
  trans a b c hab hbc := by
    unfold distRel at *
    rcases hab with h | ⟨he, hi⟩ <;> rcases hbc with h' | ⟨he', hi'⟩
    · exact Or.inl (h.trans h')
    · exact Or.inl (he' ▸ h)
    · exact Or.inl (he ▸ h')
    · exact Or.inr ⟨he.trans he', hi.trans hi'⟩

/-- `faiss.IndexFlatL2.search` on one query: exact brute-force scan of
all stored vectors, the `k` nearest returned in ascending-distance order
as `(distance, label)` pairs; when fewer than `k` vectors are stored the
remaining slots are the sentinel `(FLT_MAX, -1)`.  (FAISS returns two
`(1, k)` arrays; we keep the columns zipped.) -/
def faissSearch (vecs : List (List ℚ)) (q : List ℚ) (k : Nat) : List (ℚ × ℤ) :=
  let scored := vecs.enum.map (fun p => (sqDist q p.2, (p.1 : ℤ)))
  let top := (scored.insertionSort distRel).take k
  top ++ List.replicate (k - top.length) (FLT_MAX, -1)

/-! ## `utils/chunker.py` — `chunk_text`

The source is a `while start < len(text)` loop: slice
`text[start:start+chunk_size]`, append it when `chunk.strip()` is truthy,
and advance `start` by `chunk_size - overlap` unconditionally.  There is
no parameter validation.  `chunkLoop` is the loop itself, fuel-indexed so
that non-termination (fuel exhausted for every fuel) is observable; each
kept chunk is paired with the `start` offset it was sliced at (the source
keeps only the chunk text — project with `Prod.snd`). -/

def chunkLoop (text : Str) (cs ov : ℤ) :
    Nat → ℤ → Option (List (ℤ × Str))
  | 0, start =>
    if start < (text.length : ℤ) then none else some []
  | fuel + 1, start =>
    if start < (text.length : ℤ) then
      let chunk := pySlice text start (start + cs)
      (chunkLoop text cs ov fuel (start + (cs - ov))).map
        (fun rest => if hasNonWS chunk then (start, chunk) :: rest else rest)
    else some []

/-- `chunk_text(text, chunk_size, overlap)` when it terminates:
`text.length + 1` loop iterations always suffice for a positive stride
(each iteration with a positive stride advances `start` by at least 1). -/
def chunk_text (text : Str) (cs ov : ℤ) : Option (List Str) :=
  (chunkLoop text cs ov (text.length + 1) 0).map (List.map Prod.snd)

/-- `chunk_text` never terminates on this input: the loop guard
`start < len(text)` survives every iteration. -/
def chunkTextDiverges (text : Str) (cs ov : ℤ) : Prop :=
  ∀ fuel, chunkLoop text cs ov fuel 0 = none

/-! ## `vector_store/faiss_db.py` — `FAISSVectorStore` -/

/-- Metadata record: a Python dict with string values
(`{"source": filename}` in the ingestion path). -/
abbrev Meta := List (Str × Str)

structure FAISSVectorStore where
  dimension : Nat
  index : List (List ℚ)
  chunks : List Str
  metadata : List Meta

/-- `FAISSVectorStore(dimension)`: fresh empty flat index, empty lists. -/
def FAISSVectorStore.init (dimension : Nat) : FAISSVectorStore :=
  { dimension := dimension, index := [], chunks := [], metadata := [] }

/-- `add_documents(chunks, embeddings, metadata)`:
`np.array(embeddings).astype('float32')` followed by `index.add` requires
a non-empty rectangular `(n, dimension)` matrix and raises otherwise
(before anything is mutated, modelled as `none`); on success the index
and both lists are extended. -/
def FAISSVectorStore.add_documents (st : FAISSVectorStore)
    (chunks : List Str) (embeddings : List (List ℚ)) (metadata : List Meta) :
    Option FAISSVectorStore :=
  if embeddings ≠ [] ∧ ∀ e ∈ embeddings, e.length = st.dimension then
    some { st with
      index := st.index ++ embeddings
      chunks := st.chunks ++ chunks
      metadata := st.metadata ++ metadata }
  else
    none

/-- `search(query_embedding, k)`: delegates to the FAISS flat index and
returns its raw `(distances, indices)` rows, kept zipped. -/
def FAISSVectorStore.search (st : FAISSVectorStore) (q : List ℚ) (k : Nat) :
    List (ℚ × ℤ) :=
  faissSearch st.index q k

/-- `get_total_chunks()`. -/
def FAISSVectorStore.get_total_chunks (st : FAISSVectorStore) : Nat :=
  st.chunks.length

/-- One ingestion batch as `process_document_background` builds it:
parallel chunk, embedding and metadata lists. -/
structure IngestOp where
  chunks : List Str
  embeddings : List (List ℚ)
  metadata : List Meta

/-- Apply one `add_documents` call; a raising call leaves the store
unchanged (the exception propagates before any mutation). -/
def applyIngest (st : FAISSVectorStore) (op : IngestOp) : FAISSVectorStore :=
  match st.add_documents op.chunks op.embeddings op.metadata with
  | some st' => st'
  | none => st

/-- Position-alignment invariant of the store. -/
def faissAligned (st : FAISSVectorStore) : Prop :=
  st.index.length = st.chunks.length ∧ st.chunks.length = st.metadata.length

/-! ## `vector_store/__init__.py` — `VectorStore` (value level)

Value-level model of the second store class: the index plus the
`metadata` list of dicts.  (The heap/aliasing behaviour of its `search`
is modelled separately below.) -/

/-- A metadata dict value: string or float. -/
inductive PyVal where
  | str (s : Str)
  | num (q : ℚ)
deriving DecidableEq

abbrev PyDict := List (Str × PyVal)

structure VectorStore where
  dimension : Nat
  index : List (List ℚ)
  metadata : List PyDict

/-- `load_or_create_index`, run by `__init__` after `self.metadata = []`:
when the index file is absent (`persisted = none`) the store keeps a
fresh `IndexFlatL2(dimension)` and the empty metadata list; when present,
`faiss.read_index` and `pickle.load` results are installed verbatim —
the source performs no consistency check between the two. -/
def load_or_create_index (dimension : Nat)
    (persisted : Option (List (List ℚ) × List PyDict)) : VectorStore :=
  match persisted with
  | none => { dimension := dimension, index := [], metadata := [] }
  | some (idx, md) => { dimension := dimension, index := idx, metadata := md }

/-- `add_vectors(vectors, metadata)`: `index.add(vectors)` (raising on a
dimension mismatch or an empty/ragged matrix before any mutation), then
`metadata.extend`, then `save_index()` (which changes no in-memory
state). -/
def VectorStore.add_vectors (st : VectorStore)
    (vectors : List (List ℚ)) (metadata : List PyDict) : Option VectorStore :=
  if vectors ≠ [] ∧ ∀ v ∈ vectors, v.length = st.dimension then
    some { st with
      index := st.index ++ vectors
      metadata := st.metadata ++ metadata }
  else
    none

def applyAddVectors (st : VectorStore) (op : List (List ℚ) × List PyDict) :
    VectorStore :=
  match st.add_vectors op.1 op.2 with
  | some st' => st'
  | none => st

def vsAligned (st : VectorStore) : Prop :=
  st.index.length = st.metadata.length

/-! ## `VectorStore.search` with explicit heap (aliasing/copy semantics)

`search` builds each result as `self.metadata[idx].copy()` and then sets
`result['distance']` on the copy.  To state that this leaves the stored
dicts untouched we make the Python object heap explicit: dict objects
live in a heap (`alloc` = append, address = position) and the store's
`metadata` list holds addresses. -/

abbrev Heap := List PyDict

def distanceKey : Str := ("distance").data

structure VectorStoreH where
  dimension : Nat
  index : List (List ℚ)
  metadata : List Nat

/-- The result loop of `VectorStore.search`: for each `(distance, idx)`
with `idx < len(self.metadata)`, read the dict at `self.metadata[idx]`,
allocate a copy with `'distance'` set, and collect the fresh address.  A
failing `metadata[idx]` lookup (IndexError) aborts with the heap as
mutated so far. -/
def vsSearchLoop (addrs : List Nat) :
    Heap → List (ℚ × ℤ) → Heap × Option (List Nat)
  | heap, [] => (heap, some [])
  | heap, (d, idx) :: rest =>
    if idx < (addrs.length : ℤ) then
      match pyListGet addrs idx with
      | none => (heap, none)
      | some addr =>
        match heap[addr]? with
        | none => (heap, none)
        | some dict =>
          let fresh := heap.length
          let heap2 := heap ++ [pyDictSet dict distanceKey (PyVal.num d)]
          match vsSearchLoop addrs heap2 rest with
          | (heapF, some rs) => (heapF, some (fresh :: rs))
          | (heapF, none) => (heapF, none)
    else
      vsSearchLoop addrs heap rest

/-- `VectorStore.search(query_vector, k)` under the heap model. -/
def VectorStoreH.search (st : VectorStoreH) (heap : Heap)
    (q : List ℚ) (k : Nat) : Heap × Option (List Nat) :=
  vsSearchLoop st.metadata heap (faissSearch st.index q k)

/-! ## `models/llm.py` — `SimpleLLM.generate_answer`

The transformers pipeline held in `self.generator` is abstract: `none`
when construction failed in `__init__`; otherwise a function from the
prompt to either generated text or an internal failure (anything the
`except` arm would catch, including a malformed result list). -/

structure SimpleLLM where
  generator : Option (Str → Except Str Str)

def promptPrefix : Str :=
  ("Answer the following question based only on the context provided.\n\nContext: ").data

def promptMid : Str := ("\n\nQuestion: ").data

def promptSuffix : Str :=
  ("\n\nProvide a clear, concise answer based on the context above.").data

def noLLMPrefix : Str := ("LLM not available. Retrieved context: ").data

def genErrPrefix : Str := ("Error generating answer. Retrieved context: ").data

/-- The f-string prompt: it interpolates `context[:1500]` and the
question. -/
def mkPrompt (question ctx : Str) : Str :=
  promptPrefix ++ ctx.take 1500 ++ promptMid ++ question ++ promptSuffix

/-- `generate_answer(question, context)`: fallback embedding
`context[:500]` when the generator is missing, `result.strip()` on
success, and the same degraded fallback from the `except` arm on any
internal failure. -/
def generate_answer (llm : SimpleLLM) (question ctx : Str) : Str :=
  match llm.generator with
  | none => noLLMPrefix ++ ctx.take 500
  | some g =>
    match g (mkPrompt question ctx) with
    | .ok t => pyStrip t
    | .error _ => genErrPrefix ++ ctx.take 500

/-! ## `main.py` — `query_documents` -/

def cannedNoDocs : Str :=
  ("No documents uploaded yet. Please upload documents first.").data

def sourceKey : Str := ("source").data

def unknownSource : Str := ("unknown").data

def blankLine : Str := ("\n\n").data

structure QueryResponse where
  question : Str
  answer : Str
  sources : List Str
  similarity_scores : List ℚ
  num_chunks_retrieved : Option Nat
deriving DecidableEq

/-- The retrieval loop of `query_documents`: for each `(distance, idx)`
pair from the search, when `idx < len(vector_store.chunks)` look up
`chunks[idx]` and `metadata[idx]` (an IndexError propagates, `none`) and
record `(chunk, source, round(1/(1+distance), 3))`. -/
def retrieveLoop (st : FAISSVectorStore) :
    List (ℚ × ℤ) → Option (List (Str × Str × ℚ))
  | [] => some []
  | (d, idx) :: rest =>
    if idx < (st.chunks.length : ℤ) then
      match pyListGet st.chunks idx with
      | none => none
      | some ch =>
        match pyListGet st.metadata idx with
        | none => none
        | some md =>
          (retrieveLoop st rest).map
            (fun r =>
              (ch, pyDictGetD md sourceKey unknownSource,
                round3 (1 / (1 + d))) :: r)
    else
      retrieveLoop st rest

/-- `query_documents`: short-circuit on an empty store, otherwise embed
the question, search with `k = 3`, run the retrieval loop, join the
retrieved chunks with a blank line and generate the answer.  `none`
models an uncaught exception (re-raised as HTTP 500). -/
def query_documents (st : FAISSVectorStore) (embed_query : Str → List ℚ)
    (llm : SimpleLLM) (question : Str) : Option QueryResponse :=
  if st.get_total_chunks = 0 then
    some { question := question, answer := cannedNoDocs, sources := [],
           similarity_scores := [], num_chunks_retrieved := none }
  else
    let pairs := st.search (embed_query question) 3
    match retrieveLoop st pairs with
    | none => none
    | some triples =>
      let retrieved := triples.map (fun t => t.1)
      let context := List.intercalate blankLine retrieved
      some { question := question
             answer := generate_answer llm question context
             sources := triples.map (fun t => t.2.1)
             similarity_scores := triples.map (fun t => t.2.2)
             num_chunks_retrieved := some retrieved.length }

example : pySlice "hello".toList 1 3 = "el".toList := by decide
example : pySlice "hello".toList (-2) 5 = "lo".toList := by decide
example : pyListGet ["a", "b"] (-1) = some "b" := by decide
example : pyListGet ([] : List Nat) (-1) = none := by decide
example : faissSearch [[0,0],[3,4]] [0,0] 3 =
    [(0, 0), (25, 1), (FLT_MAX, -1)] := by
  norm_num [faissSearch, sqDist, distRel, FLT_MAX, List.enum]
example : hasNonWS " a ".toList = true := by decide
example : hasNonWS "  ".toList = false := by decide
example : round3 (1/3) = 333/1000 := by
  norm_num [round3, roundHalfEven, Rat.floor]

/-! ## Helper lemmas -/

lemma applyIngest_aligned (st : FAISSVectorStore) (op : IngestOp)
    (hop : op.chunks.length = op.embeddings.length ∧
      op.embeddings.length = op.metadata.length)
    (h : faissAligned st) : faissAligned (applyIngest st op) := by
  by_cases hc : op.embeddings ≠ [] ∧ ∀ e ∈ op.embeddings, e.length = st.dimension
  · obtain ⟨h1, h2⟩ := h
    simp only [applyIngest, FAISSVectorStore.add_documents, if_pos hc,
      faissAligned, List.length_append]
    omega
  · simpa only [applyIngest, FAISSVectorStore.add_documents, if_neg hc] using h

lemma foldl_applyIngest_aligned : ∀ (ops : List IngestOp) (st : FAISSVectorStore),
    (∀ op ∈ ops, op.chunks.length = op.embeddings.length ∧
      op.embeddings.length = op.metadata.length) →
    faissAligned st → faissAligned (ops.foldl applyIngest st)
  | [], _, _, h => h
  | op :: ops, st, hops, h =>
    foldl_applyIngest_aligned ops (applyIngest st op)
      (fun o ho => hops o (List.mem_cons_of_mem _ ho))
      (applyIngest_aligned st op (hops op (List.mem_cons_self _ _)) h)

lemma applyAddVectors_aligned (st : VectorStore)
    (op : List (List ℚ) × List PyDict) (hop : op.1.length = op.2.length)
    (h : vsAligned st) : vsAligned (applyAddVectors st op) := by
  by_cases hc : op.1 ≠ [] ∧ ∀ v ∈ op.1, v.length = st.dimension
  · have h' : st.index.length = st.metadata.length := h
    simp only [applyAddVectors, VectorStore.add_vectors, if_pos hc,
      vsAligned, List.length_append]
    omega
  · simpa only [applyAddVectors, VectorStore.add_vectors, if_neg hc] using h

lemma foldl_applyAddVectors_aligned :
    ∀ (ops : List (List (List ℚ) × List PyDict)) (st : VectorStore),
    (∀ op ∈ ops, op.1.length = op.2.length) →
    vsAligned st → vsAligned (ops.foldl applyAddVectors st)
  | [], _, _, h => h
  | op :: ops, st, hops, h =>
    foldl_applyAddVectors_aligned ops (applyAddVectors st op)
      (fun o ho => hops o (List.mem_cons_of_mem _ ho))
      (applyAddVectors_aligned st op (hops op (List.mem_cons_self _ _)) h)

/-! ## Claims -/

/-- C1: for every sequence of document additions whose chunk, embedding
and metadata lists are equally long (as `process_document_background`
builds them — one embedding and one metadata record per chunk), the
FAISS index, the chunk list and the metadata list always have equal
counts: the invariant holds after every prefix of the sequence, for
`FAISSVectorStore.add_documents` and likewise for
`VectorStore.add_vectors`.  A call that raises (empty or ragged or
wrong-dimension matrix) mutates nothing. -/
theorem C1_alignment_invariant (ops : List IngestOp)
    (hops : ∀ op ∈ ops, op.chunks.length = op.embeddings.length ∧
      op.embeddings.length = op.metadata.length)
    (ops2 : List (List (List ℚ) × List PyDict))
    (hops2 : ∀ op ∈ ops2, op.1.length = op.2.length)
    (d d2 : Nat) :
    (∀ i, faissAligned ((ops.take i).foldl applyIngest (FAISSVectorStore.init d))) ∧
    (∀ i, vsAligned ((ops2.take i).foldl applyAddVectors
      (load_or_create_index d2 none))) := by
  constructor
  · intro i
    exact foldl_applyIngest_aligned _ _
      (fun o ho => hops o (List.take_subset i ops ho)) ⟨rfl, rfl⟩
  · intro i
    exact foldl_applyAddVectors_aligned _ _
      (fun o ho => hops2 o (List.take_subset i ops2 ho)) rfl

theorem C1_witness :
    faissAligned (([⟨[("c").data], [[0, 0]], [[(sourceKey, ("a").data)]]⟩] :
        List IngestOp).foldl applyIngest (FAISSVectorStore.init 2)) ∧
    vsAligned (([([[0, 0]], [[]])] : List (List (List ℚ) × List PyDict)).foldl
        applyAddVectors (load_or_create_index 2 none)) := by
  have h := C1_alignment_invariant
    [⟨[("c").data], [[0, 0]], [[(sourceKey, ("a").data)]]⟩]
    (by intro op hop; simp at hop; subst hop; exact ⟨rfl, rfl⟩)
    [([[0, 0]], [[]])]
    (by intro op hop; simp at hop; subst hop; rfl) 2 2
  exact ⟨by simpa using h.1 1, by simpa using h.2 1⟩

/-- C6 (counterexample): a persisted pair whose index holds 1 vector but
whose metadata sidecar holds 2 records loads without any error into a
store with mismatched counts — `load_or_create_index` performs no
consistency check, contradicting the claimed CorruptStore failure. -/
theorem C6_counterexample :
    (load_or_create_index 384 (some ([List.replicate 384 0], [[], []]))).index.length = 1 ∧
    (load_or_create_index 384 (some ([List.replicate 384 0], [[], []]))).metadata.length = 2 :=
  ⟨rfl, rfl⟩

/-- C6 (amended): when the index file is absent a fresh empty store of
the configured dimension results; when present, the deserialized index
and metadata sidecar are installed exactly as read, with no entry-count
consistency check (a mismatched pair is accepted silently). -/
theorem C6_load_no_consistency_check (dim : Nat) :
    load_or_create_index dim none =
      { dimension := dim, index := [], metadata := [] } ∧
    (∀ idx md, load_or_create_index dim (some (idx, md)) =
      { dimension := dim, index := idx, metadata := md }) :=
  ⟨rfl, fun _ _ => rfl⟩

/-- C7: a query against an empty store short-circuits to the canned
no-documents answer with empty sources and scores (and no
`num_chunks_retrieved` key), raises nothing, and the result is
independent of the embedding and generation ports — they are never
invoked. -/
theorem C7_empty_store_short_circuit (st : FAISSVectorStore)
    (embed : Str → List ℚ) (llm : SimpleLLM) (q : Str)
    (h : st.get_total_chunks = 0) :
    query_documents st embed llm q =
      some { question := q, answer := cannedNoDocs, sources := [],
             similarity_scores := [], num_chunks_retrieved := none } ∧
    (∀ (embed2 : Str → List ℚ) (llm2 : SimpleLLM),
      query_documents st embed llm q = query_documents st embed2 llm2 q) := by
  refine ⟨by simp [query_documents, h], fun embed2 llm2 => ?_⟩
  simp [query_documents, h]

theorem C7_witness :
    query_documents (FAISSVectorStore.init 384) (fun _ => [0]) ⟨none⟩ ("hi").data =
      some { question := ("hi").data, answer := cannedNoDocs, sources := [],
             similarity_scores := [], num_chunks_retrieved := none } :=
  (C7_empty_store_short_circuit (FAISSVectorStore.init 384)
    (fun _ => [0]) ⟨none⟩ ("hi").data rfl).1

/-- C9: `generate_answer` is total — every case returns a string.  When
the generator failed to load it returns the degraded fallback embedding
the first 500 characters of the context; when the generator fails
internally the `except` arm returns the analogous fallback; on success it
returns the stripped generated text. -/
theorem C9_generate_answer_total (q ctx : Str) (g : Str → Except Str Str) :
    generate_answer ⟨none⟩ q ctx = noLLMPrefix ++ ctx.take 500 ∧
    (∀ e, g (mkPrompt q ctx) = Except.error e →
      generate_answer ⟨some g⟩ q ctx = genErrPrefix ++ ctx.take 500) ∧
    (∀ t, g (mkPrompt q ctx) = Except.ok t →
      generate_answer ⟨some g⟩ q ctx = pyStrip t) := by
  refine ⟨rfl, ?_, ?_⟩ <;> intro x hx <;> simp [generate_answer, hx]

theorem C9_witness :
    generate_answer ⟨some (fun _ => Except.error [])⟩ ("q").data ("abc").data =
      genErrPrefix ++ ("abc").data.take 500 :=
  (C9_generate_answer_total ("q").data ("abc").data
    (fun _ => Except.error [])).2.1 [] rfl

/-- C8: on a non-empty store the retrieved chunk texts are joined with a
blank-line separator into the context and the answer is
`generate_answer` on that context; `generate_answer` uses only the first
1500 characters of the context (the prompt interpolates
`context[:1500]`, the degraded fallbacks `context[:500]`), so the port
computes from the truncated context. -/
theorem C8_context_truncation (st : FAISSVectorStore) (embed : Str → List ℚ)
    (llm : SimpleLLM) (q : Str) (h : st.get_total_chunks ≠ 0)
    (triples : List (Str × Str × ℚ))
    (hr : retrieveLoop st (st.search (embed q) 3) = some triples) :
    (query_documents st embed llm q).map QueryResponse.answer =
      some (generate_answer llm q
        (List.intercalate blankLine (triples.map (fun t => t.1)))) ∧
    (∀ (q2 ctx : Str),
      generate_answer llm q2 ctx = generate_answer llm q2 (ctx.take 1500)) := by
  constructor
  · simp [query_documents, h, hr]
  · intro q2 ctx
    obtain ⟨gen⟩ := llm
    cases gen with
    | none =>
      simp [generate_answer, List.take_take]
    | some g =>
      simp [generate_answer, mkPrompt, List.take_take]

def store3 : FAISSVectorStore :=
  { dimension := 2
    index := [[0, 0], [1, 0], [2, 0]]
    chunks := [("c0").data, ("c1").data, ("c2").data]
    metadata := [[(sourceKey, ("a").data)], [(sourceKey, ("a").data)],
      [(sourceKey, ("a").data)]] }

theorem C8_witness :
    (query_documents store3 (fun _ => [0, 0]) ⟨none⟩ ("q").data).map
        QueryResponse.answer =
      some (generate_answer ⟨none⟩ ("q").data
        (List.intercalate blankLine [("c0").data, ("c1").data, ("c2").data])) := by
  have hs : store3.search ((fun _ => ([0, 0] : List ℚ)) ("q").data) 3 =
      [(0, 0), (1, 1), (4, 2)] := by
    norm_num [store3, FAISSVectorStore.search, faissSearch, sqDist, distRel,
      List.enum]
  have hr : retrieveLoop store3
      (store3.search ((fun _ => ([0, 0] : List ℚ)) ("q").data) 3) =
      some [(("c0").data, ("a").data, round3 (1 / (1 + 0))),
            (("c1").data, ("a").data, round3 (1 / (1 + 1))),
            (("c2").data, ("a").data, round3 (1 / (1 + 4)))] := by
    rw [hs]
    simp [retrieveLoop, store3, pyListGet, pyDictGetD]
  have h := (C8_context_truncation store3 (fun _ => [0, 0]) ⟨none⟩ ("q").data
    (by decide) _ hr).1
  simpa using h

/-! C3 helper lemmas: behaviour of the chunker loop for non-positive and
positive strides. -/

lemma chunkLoop_none_of_nonpos (text : Str) (cs ov : ℤ) (hso : cs ≤ ov)
    (hne : 0 < text.length) :
    ∀ fuel start, start ≤ 0 → chunkLoop text cs ov fuel start = none := by
  intro fuel
  induction fuel with
  | zero =>
    intro start hs
    have hg : start < (text.length : ℤ) := by omega
    simp [chunkLoop, hg]
  | succ n ih =>
    intro start hs
    have hg : start < (text.length : ℤ) := by omega
    have hrec := ih (start + (cs - ov)) (by omega)
    simp [chunkLoop, hg, hrec]

lemma chunkLoop_isSome_of_pos (text : Str) (cs ov : ℤ) (hso : ov < cs) :
    ∀ (fuel : Nat) (start : ℤ), (text.length : ℤ) - start < (fuel : ℤ) →
      (chunkLoop text cs ov fuel start).isSome := by
  intro fuel
  induction fuel with
  | zero =>
    intro start h
    have hg : ¬ start < (text.length : ℤ) := by omega
    simp [chunkLoop, hg]
  | succ n ih =>
    intro start h
    by_cases hg : start < (text.length : ℤ)
    · have := ih (start + (cs - ov)) (by omega)
      obtain ⟨l, hl⟩ := Option.isSome_iff_exists.mp this
      simp [chunkLoop, hg, hl]
    · simp [chunkLoop, hg]

/-- C3 (counterexample): with `chunk_size = 2 ≤ overlap = 3` and the
non-empty text `"a"` the source neither fails fast (it contains no
parameter validation and no error path at all) nor makes forward
progress: the loop guard `start < len(text)` survives every iteration,
so the `while` loop never exits regardless of fuel. -/
theorem C3_counterexample : chunkTextDiverges ("a").data 2 3 :=
  fun fuel =>
    chunkLoop_none_of_nonpos ("a").data 2 3 (by norm_num) (by decide) fuel 0
      le_rfl

/-- C3 (amended): for `chunk_size ≤ overlap` and non-empty text,
`chunk_text` neither fails fast nor terminates — the loop diverges; for
`chunk_size > overlap` it always terminates (within `len(text) + 1`
iterations), advancing `start` by the fixed stride
`chunk_size - overlap` from 0 while `start < len(text)`. -/
theorem C3_chunker_termination :
    (∀ (text : Str) (cs ov : ℤ), cs ≤ ov → text ≠ [] →
      chunkTextDiverges text cs ov) ∧
    (∀ (text : Str) (cs ov : ℤ), ov < cs → (chunk_text text cs ov).isSome) := by
  constructor
  · intro text cs ov h1 h2 fuel
    exact chunkLoop_none_of_nonpos text cs ov h1 (List.length_pos.mpr h2)
      fuel 0 le_rfl
  · intro text cs ov h
    have hs := chunkLoop_isSome_of_pos text cs ov h (text.length + 1) 0
      (by push_cast; omega)
    obtain ⟨l, hl⟩ := Option.isSome_iff_exists.mp hs
    simp [chunk_text, hl]

theorem C3_witness :
    chunkLoop ("b").data 1 2 5 0 = none ∧
    (chunk_text ("ab").data 2 1).isSome :=
  ⟨C3_chunker_termination.1 ("b").data 1 2 (by norm_num) (by decide) 5,
   C3_chunker_termination.2 ("ab").data 2 1 (by norm_num)⟩

/-! C4 helper lemmas: slices at non-negative offsets, and a
characterization of every chunk the loop emits. -/

lemma pySlice_natCast (text : Str) (a cs : ℕ) :
    pySlice text (a : ℤ) ((a : ℤ) + (cs : ℤ)) = (text.drop a).take cs := by
  unfold pySlice pyBound
  have h1 : ¬ ((a : ℤ) < 0) := by omega
  have h2 : ¬ ((a : ℤ) + (cs : ℤ) < 0) := by omega
  have h3 : ((a : ℤ)).toNat = a := by omega
  have h4 : ((a : ℤ) + (cs : ℤ)).toNat = a + cs := by omega
  simp only [if_neg h1, if_neg h2, h3, h4]
  by_cases han : a ≤ text.length
  · rw [min_eq_left han]
    by_cases hacs : a + cs ≤ text.length
    · rw [min_eq_left hacs]
      congr 1
      omega
    · rw [min_eq_right (by omega : text.length ≤ a + cs)]
      have hlen : (text.drop a).length = text.length - a := by simp
      rw [List.take_of_length_le (by omega), List.take_of_length_le (by omega)]
  · rw [min_eq_right (by omega : text.length ≤ a),
      min_eq_right (by omega : text.length ≤ a + cs)]
    simp [List.drop_eq_nil_of_le (by omega : text.length ≤ a)]

lemma chunkLoop_mem_char (text : Str) (cs ov : ℤ) (hso : ov < cs) :
    ∀ (fuel : Nat) (start : ℤ) (l : List (ℤ × Str)),
      chunkLoop text cs ov fuel start = some l →
      (∀ p ∈ l, start ≤ p.1 ∧ p.1 < (text.length : ℤ) ∧
        p.2 = pySlice text p.1 (p.1 + cs) ∧ hasNonWS p.2) ∧
      l.Pairwise (fun a b => a.1 < b.1) := by
  intro fuel
  induction fuel with
  | zero =>
    intro start l hl
    by_cases hg : start < (text.length : ℤ)
    · simp [chunkLoop, hg] at hl
    · simp [chunkLoop, hg] at hl
      subst hl
      simp
  | succ n ih =>
    intro start l hl
    by_cases hg : start < (text.length : ℤ)
    · simp only [chunkLoop, if_pos hg] at hl
      obtain ⟨rest, hrest, hfl⟩ := Option.map_eq_some'.mp hl
      obtain ⟨hmem, hpw⟩ := ih (start + (cs - ov)) rest hrest
      by_cases hws : hasNonWS (pySlice text start (start + cs))
      · rw [if_pos hws] at hfl
        subst hfl
        constructor
        · intro p hp
          rcases List.mem_cons.mp hp with hp | hp
          · subst hp
            exact ⟨le_refl _, hg, rfl, hws⟩
          · obtain ⟨hs, hlt, hsl, hnw⟩ := hmem p hp
            exact ⟨by omega, hlt, hsl, hnw⟩
        · exact List.Pairwise.cons
            (fun p hp => by have := (hmem p hp).1; omega) hpw
      · rw [if_neg hws] at hfl
        subst hfl
        refine ⟨fun p hp => ?_, hpw⟩
        obtain ⟨hs, hlt, hsl, hnw⟩ := hmem p hp
        exact ⟨by omega, hlt, hsl, hnw⟩
    · simp [chunkLoop, hg] at hl
      subst hl
      simp

/-- C4 (counterexample): `chunk_text("ab    cd", chunk_size=3, overlap=1)`
keeps the windows at starts 0, 4 and 6 (the all-whitespace window at
start 2 is dropped while the offset still advances).  The consecutive
returned chunks at starts 0 and 4 share no characters — the first ends
at position 3 ≤ 4 — so they do not overlap by exactly `overlap = 1`,
and neither is the final chunk (the first even has full length 3). -/
theorem C4_counterexample :
    chunkLoop ("ab    cd").data 3 1 9 0 =
      some [(0, ("ab ").data), (4, ("  c").data), (6, ("cd").data)] ∧
    (0 : ℤ) + (("ab ").data.length : ℤ) ≤ 4 := by
  constructor
  · decide
  · decide

/-- C4 (amended): for `chunk_size > overlap > 0`, every returned chunk
has length at most `chunk_size` and chunks appear in left-to-right order
(strictly increasing start offsets); two returned chunks taken from
*adjacent* window positions (start offsets differing by exactly the
stride) with the earlier window fully inside the text overlap by exactly
`overlap` characters.  When an intermediate whitespace-only candidate is
dropped, consecutive *returned* chunks come from non-adjacent windows
and can overlap by fewer than `overlap` characters — even zero. -/
theorem C4_chunk_properties (text : Str) (cs ov : Nat) (h1 : 0 < ov)
    (h2 : ov < cs) (l : List (ℤ × Str))
    (hl : chunkLoop text (cs : ℤ) (ov : ℤ) (text.length + 1) 0 = some l) :
    (∀ p ∈ l, p.2.length ≤ cs) ∧
    l.Pairwise (fun a b => a.1 < b.1) ∧
    (∀ a b, a ∈ l → b ∈ l → b.1 = a.1 + ((cs : ℤ) - (ov : ℤ)) →
      a.1 + (cs : ℤ) ≤ (text.length : ℤ) →
      a.2.drop (cs - ov) = b.2.take ov ∧ (b.2.take ov).length = ov) := by
  have hso : (ov : ℤ) < (cs : ℤ) := by omega
  obtain ⟨hmem, hpw⟩ := chunkLoop_mem_char text cs ov hso (text.length + 1) 0 l hl
  have hslice : ∀ p ∈ l, p.2 = (text.drop p.1.toNat).take cs := by
    intro p hp
    obtain ⟨hs, hlt, hsl, _⟩ := hmem p hp
    have h0 : (0 : ℤ) ≤ p.1 := hs
    have hcast : p.1 = ((p.1.toNat : ℕ) : ℤ) := by omega
    rw [hsl,
      show pySlice text p.1 (p.1 + (cs : ℤ)) =
        pySlice text ((p.1.toNat : ℕ) : ℤ) (((p.1.toNat : ℕ) : ℤ) + (cs : ℤ))
        from by rw [← hcast]]
    exact pySlice_natCast text p.1.toNat cs
  refine ⟨?_, hpw, ?_⟩
  · intro p hp
    rw [hslice p hp]
    simp [List.length_take]
  · intro a b ha hb hstride hfit
    have h0a : (0 : ℤ) ≤ a.1 := (hmem a ha).1
    have h0b : (0 : ℤ) ≤ b.1 := (hmem b hb).1
    set sa := a.1.toNat with hsa
    set sb := b.1.toNat with hsb
    have hsb_eq : sb = sa + (cs - ov) := by omega
    have hfit' : sa + cs ≤ text.length := by omega
    have hA : a.2 = (text.drop sa).take cs := hslice a ha
    have hB : b.2 = (text.drop sb).take cs := hslice b hb
    have key : a.2.drop (cs - ov) = List.take ov (text.drop sb) := by
      rw [hA, List.drop_take, List.drop_drop,
        (by omega : cs - (cs - ov) = ov), (by omega : sa + (cs - ov) = sb)]
    have keyB : b.2.take ov = List.take ov (text.drop sb) := by
      rw [hB, List.take_take, min_eq_left (by omega : ov ≤ cs)]
    constructor
    · rw [key, keyB]
    · rw [keyB]
      simp only [List.length_take, List.length_drop]
      omega

def chunksABCDE : List (ℤ × Str) :=
  [(0, ("ab").data), (1, ("bc").data), (2, ("cd").data),
   (3, ("de").data), (4, ("e").data)]

theorem C4_witness :
    (∀ p ∈ chunksABCDE, p.2.length ≤ 2) ∧
    chunksABCDE.Pairwise (fun a b => a.1 < b.1) ∧
    (∀ a b, a ∈ chunksABCDE → b ∈ chunksABCDE →
      b.1 = a.1 + (((2 : Nat) : ℤ) - ((1 : Nat) : ℤ)) →
      a.1 + ((2 : Nat) : ℤ) ≤ ((("abcde").data.length : Nat) : ℤ) →
      a.2.drop (2 - 1) = b.2.take 1 ∧ (b.2.take 1).length = 1) :=
  C4_chunk_properties ("abcde").data 2 1 (by decide) (by decide)
    chunksABCDE (by decide)

/-! C5 helper lemmas: Python indexing in range, and the closed form of
the retrieval loop. -/

lemma pyListGet_eq_getD (l : List α) (i : ℤ) (d : α)
    (h1 : -(l.length : ℤ) ≤ i) (h2 : i < (l.length : ℤ)) :
    pyListGet l i = some (l.getD (normIdx l.length i) d) ∧
    normIdx l.length i < l.length := by
  unfold pyListGet normIdx
  by_cases h0 : 0 ≤ i
  · have hin : i.toNat < l.length := by omega
    rw [dif_pos ⟨h0, h2⟩, if_neg (by omega : ¬ i < 0)]
    refine ⟨?_, hin⟩
    rw [List.getD_eq_getElem l d hin]
    simp [List.get_eq_getElem]
  · have hin : ((l.length : ℤ) + i).toNat < l.length := by omega
    rw [dif_neg (by omega), dif_pos ⟨by omega, by omega⟩,
      if_pos (by omega : i < 0)]
    refine ⟨?_, hin⟩
    rw [List.getD_eq_getElem l d hin]
    simp [List.get_eq_getElem]

/-- The closed form of the retrieval loop under the position-alignment
invariant: positions `≥ len(chunks)` are skipped, all others (including
negative FAISS sentinels, via Python's negative indexing) are resolved
against the stored lists. -/
def expectedRetrieve (st : FAISSVectorStore) (pairs : List (ℚ × ℤ)) :
    List (Str × Str × ℚ) :=
  pairs.filterMap (fun p =>
    if p.2 < (st.chunks.length : ℤ) then
      some (st.chunks.getD (normIdx st.chunks.length p.2) [],
        pyDictGetD (st.metadata.getD (normIdx st.chunks.length p.2) [])
          sourceKey unknownSource,
        round3 (1 / (1 + p.1)))
    else none)

/-- C5 (amended): in the query pipeline's retrieval loop over an aligned
non-empty store, every `(distance, position)` pair with
`position ≥ len(chunks)` is skipped; but the guard `idx < len(chunks)`
does NOT skip FAISS's sentinel position `-1` (returned when fewer than
`k` vectors are stored): it passes the guard and, through Python
negative indexing, resolves to the LAST stored entry
(`normIdx` sends `-1` to `len - 1`).  Every returned chunk and source
therefore still comes from an actually stored position, but sentinel
rows are not skipped as the claim states. -/
theorem C5_retrieval_positions (st : FAISSVectorStore)
    (pairs : List (ℚ × ℤ))
    (hal : st.chunks.length = st.metadata.length)
    (hne : 0 < st.chunks.length)
    (hge : ∀ p ∈ pairs, -1 ≤ p.2) :
    retrieveLoop st pairs = some (expectedRetrieve st pairs) ∧
    (∀ p ∈ pairs, p.2 < 0 →
      normIdx st.chunks.length p.2 = st.chunks.length - 1) ∧
    (∀ r ∈ expectedRetrieve st pairs, ∃ j, j < st.chunks.length ∧
      r.1 = st.chunks.getD j [] ∧
      r.2.1 = pyDictGetD (st.metadata.getD j []) sourceKey unknownSource) := by
  refine ⟨?_, ?_, ?_⟩
  · induction pairs with
    | nil => simp [retrieveLoop, expectedRetrieve]
    | cons p rest ih =>
      obtain ⟨d, i⟩ := p
      have hgei : (-1 : ℤ) ≤ i := hge (d, i) (List.mem_cons_self _ _)
      have ihrest := ih (fun q hq => hge q (List.mem_cons_of_mem _ hq))
      by_cases hlt : i < (st.chunks.length : ℤ)
      · have hc := pyListGet_eq_getD st.chunks i []
          (by omega) hlt
        have hm := pyListGet_eq_getD st.metadata i []
          (by omega) (by omega)
        have hnm : normIdx st.metadata.length i = normIdx st.chunks.length i := by
          rw [hal]
        simp only [retrieveLoop, if_pos hlt, hc.1, hm.1, ihrest,
          Option.map_some', expectedRetrieve, List.filterMap_cons, hnm]
      · simp only [retrieveLoop, if_neg hlt, ihrest, expectedRetrieve,
          List.filterMap_cons]
  · intro p hp hneg
    have := hge p hp
    unfold normIdx
    rw [if_pos hneg]
    omega
  · intro r hr
    obtain ⟨p, hp, hsome⟩ := List.mem_filterMap.mp hr
    by_cases hlt : p.2 < (st.chunks.length : ℤ)
    · rw [if_pos hlt] at hsome
      have hgei := hge p hp
      obtain rfl := Option.some.inj hsome
      refine ⟨normIdx st.chunks.length p.2, ?_, rfl, rfl⟩
      unfold normIdx
      by_cases hneg : p.2 < 0
      · rw [if_pos hneg]; omega
      · rw [if_neg hneg]; omega
    · rw [if_neg hlt] at hsome
      exact absurd hsome (by simp)

def demoStore : FAISSVectorStore :=
  { dimension := 2, index := [[0, 0]], chunks := [("c").data],
    metadata := [[(sourceKey, ("a").data)]] }

/-- C5 (counterexample): a store holding exactly one chunk, queried with
`k = 3`.  FAISS pads the missing neighbours with sentinel position `-1`;
the guard `idx < len(vector_store.chunks)` does not skip `-1`, and
Python's negative indexing resolves it to the last stored entry, so the
query returns three sources from a one-chunk store — lookups happened
for positions that are not valid stored positions. -/
theorem C5_counterexample :
    (query_documents demoStore (fun _ => [0, 0]) ⟨none⟩ ("q").data).map
        QueryResponse.sources =
      some [("a").data, ("a").data, ("a").data] ∧
    demoStore.get_total_chunks = 1 := by
  constructor
  · have hs : demoStore.search ((fun _ => ([0, 0] : List ℚ)) (("q").data)) 3 =
        [(0, 0), (FLT_MAX, -1), (FLT_MAX, -1)] := by
      norm_num [demoStore, FAISSVectorStore.search, faissSearch, sqDist,
        distRel, List.enum, List.replicate]
    simp [query_documents, demoStore, FAISSVectorStore.get_total_chunks, hs,
      retrieveLoop, pyListGet, pyDictGetD]
  · rfl

theorem C5_witness :
    retrieveLoop demoStore [(0, 0), (FLT_MAX, -1)] =
      some (expectedRetrieve demoStore [(0, 0), (FLT_MAX, -1)]) :=
  (C5_retrieval_positions demoStore [(0, 0), (FLT_MAX, -1)] rfl
    (by decide) (by decide)).1

/-! C10 helper lemmas: the search loop only allocates — the heap grows by
appending fresh cells, and every returned result address is at or beyond
the old heap end. -/

lemma vsSearchLoop_extends (addrs : List Nat) :
    ∀ (pairs : List (ℚ × ℤ)) (heap : Heap),
      ∃ extra, (vsSearchLoop addrs heap pairs).1 = heap ++ extra := by
  intro pairs
  induction pairs with
  | nil => intro heap; exact ⟨[], by simp [vsSearchLoop]⟩
  | cons p rest ih =>
    intro heap
    obtain ⟨d, idx⟩ := p
    by_cases hlt : idx < (addrs.length : ℤ)
    · cases ha : pyListGet addrs idx with
      | none =>
        exact ⟨[], by simp [vsSearchLoop, if_pos hlt, ha]⟩
      | some addr =>
        cases hd : heap[addr]? with
        | none =>
          exact ⟨[], by simp [vsSearchLoop, if_pos hlt, ha, hd]⟩
        | some dict =>
          obtain ⟨extra, hextra⟩ :=
            ih (heap ++ [pyDictSet dict distanceKey (PyVal.num d)])
          refine ⟨pyDictSet dict distanceKey (PyVal.num d) :: extra, ?_⟩
          cases hrec : vsSearchLoop addrs
              (heap ++ [pyDictSet dict distanceKey (PyVal.num d)]) rest with
          | mk heapF res =>
            have hF : heapF =
                heap ++ [pyDictSet dict distanceKey (PyVal.num d)] ++ extra := by
              rw [← hextra, hrec]
            cases res with
            | some rs =>
              simp [vsSearchLoop, if_pos hlt, ha, hd, hrec, hF]
            | none =>
              simp [vsSearchLoop, if_pos hlt, ha, hd, hrec, hF]
    · simp only [vsSearchLoop, if_neg hlt]
      exact ih heap

lemma vsSearchLoop_fresh (addrs : List Nat) :
    ∀ (pairs : List (ℚ × ℤ)) (heap : Heap) (heapF : Heap) (rs : List Nat),
      vsSearchLoop addrs heap pairs = (heapF, some rs) →
      ∀ r ∈ rs, heap.length ≤ r := by
  intro pairs
  induction pairs with
  | nil =>
    intro heap heapF rs h r hr
    simp [vsSearchLoop] at h
    rw [h.2] at hr
    simp at hr
  | cons p rest ih =>
    intro heap heapF rs h r hr
    obtain ⟨d, idx⟩ := p
    by_cases hlt : idx < (addrs.length : ℤ)
    · cases ha : pyListGet addrs idx with
      | none =>
        simp [vsSearchLoop, if_pos hlt, ha] at h
      | some addr =>
        cases hd : heap[addr]? with
        | none =>
          simp [vsSearchLoop, if_pos hlt, ha, hd] at h
        | some dict =>
          cases hrec : vsSearchLoop addrs
              (heap ++ [pyDictSet dict distanceKey (PyVal.num d)]) rest with
          | mk heapF2 res =>
            cases res with
            | some rs2 =>
              simp only [vsSearchLoop, if_pos hlt, ha, hd, hrec] at h
              have hsnd := congrArg Prod.snd h
              simp only at hsnd
              have hrs : rs = heap.length :: rs2 :=
                (Option.some.inj hsnd).symm
              rw [hrs] at hr
              rcases List.mem_cons.mp hr with hr | hr
              · omega
              · have hlen := ih
                  (heap ++ [pyDictSet dict distanceKey (PyVal.num d)])
                  heapF2 rs2 hrec r hr
                simp only [List.length_append, List.length_cons,
                  List.length_nil] at hlen
                omega
            | none =>
              simp [vsSearchLoop, if_pos hlt, ha, hd, hrec] at h
    · simp only [vsSearchLoop, if_neg hlt] at h
      exact ih heap heapF rs h r hr

/-- C10: `VectorStore.search` is read-only with respect to the store's
state: the object heap only grows by freshly allocated copies
(`heap ++ extra`), every address in the store's metadata list keeps
exactly its old content (`'distance'` is set only on the copies), and
every returned result address is fresh — distinct from every stored
metadata address.  The method body assigns to no field of `self`, so the
index and the metadata list themselves are untouched. -/
theorem C10_search_readonly (st : VectorStoreH) (heap : Heap)
    (q : List ℚ) (k : Nat) (hv : ∀ a ∈ st.metadata, a < heap.length) :
    (∃ extra, (st.search heap q k).1 = heap ++ extra) ∧
    (∀ a ∈ st.metadata, ((st.search heap q k).1)[a]? = heap[a]?) ∧
    (∀ rs, (st.search heap q k).2 = some rs →
      ∀ r ∈ rs, ∀ a ∈ st.metadata, a ≠ r) := by
  obtain ⟨extra, hextra⟩ :=
    vsSearchLoop_extends st.metadata (faissSearch st.index q k) heap
  refine ⟨⟨extra, hextra⟩, ?_, ?_⟩
  · intro a ha
    rw [show (st.search heap q k).1 = heap ++ extra from hextra]
    have := hv a ha
    simp [List.getElem?_append, this]
  · intro rs hrs r hr a ha
    have hpair : vsSearchLoop st.metadata heap (faissSearch st.index q k) =
        ((st.search heap q k).1, some rs) := by
      unfold VectorStoreH.search at hrs ⊢
      rw [← hrs]
    have hfresh := vsSearchLoop_fresh st.metadata (faissSearch st.index q k)
      heap (st.search heap q k).1 rs hpair r hr
    have := hv a ha
    omega

theorem C10_witness :
    (∃ extra, ((VectorStoreH.mk 2 [[0, 0]] [0]).search
      [[(sourceKey, PyVal.str ("a").data)]] [0, 0] 1).1 =
      [[(sourceKey, PyVal.str ("a").data)]] ++ extra) ∧
    (∀ a ∈ (VectorStoreH.mk 2 [[0, 0]] [0]).metadata,
      (((VectorStoreH.mk 2 [[0, 0]] [0]).search
        [[(sourceKey, PyVal.str ("a").data)]] [0, 0] 1).1)[a]? =
      [[(sourceKey, PyVal.str ("a").data)]][a]?) ∧
    (∀ rs, ((VectorStoreH.mk 2 [[0, 0]] [0]).search
        [[(sourceKey, PyVal.str ("a").data)]] [0, 0] 1).2 = some rs →
      ∀ r ∈ rs, ∀ a ∈ (VectorStoreH.mk 2 [[0, 0]] [0]).metadata, a ≠ r) :=
  C10_search_readonly (VectorStoreH.mk 2 [[0, 0]] [0])
    [[(sourceKey, PyVal.str ("a").data)]] [0, 0] 1 (by decide)

/-! C2 helper lemma: `distRel` entails non-decreasing distances. -/

lemma distRel_fst_le {a b : ℚ × ℤ} (h : distRel a b) : a.1 ≤ b.1 := by
  rcases h with h | ⟨h, _⟩
  · exact le_of_lt h
  · exact le_of_eq h

/-- C2 (counterexample): a store holding exactly one vector, searched
with `k = 2`, returns 2 result columns — the flat index pads missing
neighbours with the sentinel `(FLT_MAX, -1)` instead of returning
`min(k, len(V)) = 1` results, so something other than the stored
vectors is returned. -/
theorem C2_counterexample :
    (demoStore.search [0, 0] 2).length = 2 ∧
    min 2 demoStore.index.length = 1 := by
  constructor
  · have hs : demoStore.search [0, 0] 2 = [(0, 0), (FLT_MAX, -1)] := by
      norm_num [demoStore, FAISSVectorStore.search, faissSearch, sqDist,
        distRel, List.enum, List.replicate]
    rw [hs]
    rfl
  · rfl

/-- C2 (amended): `search(q, k)` always returns exactly `k`
`(distance, label)` pairs.  The first `min(k, len(V))` of them are true
results: sorted by non-decreasing distance, each carrying the position
and exact squared-L2 distance of a stored vector.  The remaining
`k - min(k, len(V))` pairs are the sentinel `(FLT_MAX, -1)`.  When
`len(V) ≤ k` every stored vector's row appears among the results — the
stored vectors are all returned, but followed by sentinel padding rather
than alone. -/
theorem C2_search_results (vecs : List (List ℚ)) (q : List ℚ) (k : Nat) :
    (faissSearch vecs q k).length = k ∧
    (((faissSearch vecs q k).take (min k vecs.length)).map
      Prod.fst).Pairwise (· ≤ ·) ∧
    (faissSearch vecs q k).drop (min k vecs.length) =
      List.replicate (k - min k vecs.length) (FLT_MAX, -1) ∧
    (∀ p ∈ (faissSearch vecs q k).take (min k vecs.length),
      ∃ i, ∃ h : i < vecs.length,
        p.2 = (i : ℤ) ∧ p.1 = sqDist q (vecs.get ⟨i, h⟩)) ∧
    (vecs.length ≤ k → ∀ i, ∀ h : i < vecs.length,
      (sqDist q (vecs.get ⟨i, h⟩), (i : ℤ)) ∈ faissSearch vecs q k) := by
  have hlen_sorted :
      ((vecs.enum.map (fun p => (sqDist q p.2, (p.1 : ℤ)))).insertionSort
        distRel).length = vecs.length := by
    rw [List.length_insertionSort, List.length_map, List.enum_length]
  have htop_len :
      (((vecs.enum.map (fun p => (sqDist q p.2, (p.1 : ℤ)))).insertionSort
        distRel).take k).length = min k vecs.length := by
    rw [List.length_take, hlen_sorted]
  have hfs : faissSearch vecs q k =
      ((vecs.enum.map (fun p => (sqDist q p.2, (p.1 : ℤ)))).insertionSort
        distRel).take k ++
      List.replicate
        (k - (((vecs.enum.map (fun p => (sqDist q p.2, (p.1 : ℤ)))).insertionSort
          distRel).take k).length) (FLT_MAX, -1) := rfl
  have htake : (faissSearch vecs q k).take (min k vecs.length) =
      ((vecs.enum.map (fun p => (sqDist q p.2, (p.1 : ℤ)))).insertionSort
        distRel).take k := by
    rw [hfs, ← htop_len, List.take_left]
  have hsorted := List.sorted_insertionSort distRel
    (vecs.enum.map (fun p => (sqDist q p.2, (p.1 : ℤ))))
  have htop_pw : (((vecs.enum.map (fun p => (sqDist q p.2, (p.1 : ℤ)))).insertionSort
      distRel).take k).Pairwise distRel :=
    List.Pairwise.sublist (List.take_sublist k _) hsorted
  refine ⟨?_, ?_, ?_, ?_, ?_⟩
  · rw [hfs, List.length_append, List.length_replicate, htop_len]
    omega
  · rw [htake]
    exact List.pairwise_map.mpr (htop_pw.imp distRel_fst_le)
  · rw [hfs, ← htop_len, List.drop_left, htop_len]
  · intro p hp
    rw [htake] at hp
    have hp2 : p ∈ (vecs.enum.map (fun p => (sqDist q p.2, (p.1 : ℤ)))).insertionSort
        distRel := List.take_subset k _ hp
    have hp3 : p ∈ vecs.enum.map (fun p => (sqDist q p.2, (p.1 : ℤ))) :=
      (List.perm_insertionSort distRel _).subset hp2
    obtain ⟨x, hx, hpx⟩ := List.mem_map.mp hp3
    have hx2 := List.mem_enum_iff_getElem?.mp hx
    have hx3 : x.1 < vecs.length := by
      by_contra hcon
      rw [List.getElem?_eq_none (by omega)] at hx2
      exact Option.noConfusion hx2
    refine ⟨x.1, hx3, ?_, ?_⟩
    · rw [← hpx]
    · rw [← hpx]
      have : vecs[x.1] = x.2 := by
        have := List.getElem?_eq_getElem hx3
        rw [this] at hx2
        exact Option.some.inj hx2
      simp [List.get_eq_getElem, this]
  · intro hle i h
    have hmem_enum : (i, vecs.get ⟨i, h⟩) ∈ vecs.enum := by
      apply List.mem_enum_iff_getElem?.mpr
      simp [List.getElem?_eq_getElem h, List.get_eq_getElem]
    have hmem_scored : (sqDist q (vecs.get ⟨i, h⟩), (i : ℤ)) ∈
        vecs.enum.map (fun p => (sqDist q p.2, (p.1 : ℤ))) :=
      List.mem_map.mpr ⟨(i, vecs.get ⟨i, h⟩), hmem_enum, rfl⟩
    have hmem_sorted : (sqDist q (vecs.get ⟨i, h⟩), (i : ℤ)) ∈
        (vecs.enum.map (fun p => (sqDist q p.2, (p.1 : ℤ)))).insertionSort
          distRel :=
      ((List.perm_insertionSort distRel _).symm).subset hmem_scored
    have htop_all : ((vecs.enum.map (fun p => (sqDist q p.2, (p.1 : ℤ)))).insertionSort
        distRel).take k =
        (vecs.enum.map (fun p => (sqDist q p.2, (p.1 : ℤ)))).insertionSort
          distRel :=
      List.take_of_length_le (by rw [hlen_sorted]; omega)
    rw [hfs]
    apply List.mem_append_left
    rw [htop_all]
    exact hmem_sorted

theorem C2_witness :
    (sqDist [0, 0] (([[0, 0], [3, 4]] : List (List ℚ)).get ⟨1, by decide⟩),
      (1 : ℤ)) ∈ faissSearch [[0, 0], [3, 4]] [0, 0] 3 :=
  (C2_search_results [[0, 0], [3, 4]] [0, 0] 3).2.2.2.2 (by decide) 1
    (by decide)
